import Mathlib

/-!
Verification of the document chunking and change-detection pipeline
(`src/parsers/docx_parser.py`, `src/change_detection/detector.py`,
`src/utils/vector_db.py`).

Python strings are embedded as `List Char` (`PyStr`); Python ints as `Nat`
where the source only ever holds non-negative values (token counts,
positions); Python floats as `ℚ` (all similarity arithmetic in the source
is elementary, so rational arithmetic is the exact counterpart).

External collaborators (the spaCy sentence segmenter, the python-docx
reader, difflib / fuzzywuzzy, the sentence-transformer encoder) are not
part of the repository; they are modelled from the spec as explicit
function parameters or as executable stand-ins, each marked
`Modelled from the spec:` in its doc comment.
-/

/-- Python `str` is embedded as a list of characters. -/
abbrev PyStr := List Char

/-- Shorthand turning a Lean string literal into the `PyStr` embedding. -/
def pstr (s : String) : PyStr := s.toList

/-- Whitespace predicate used by Python `str.strip()` (ASCII subset). -/
def isWSc (c : Char) : Bool :=
  c == ' ' || c == '\t' || c == '\n' || c == '\r' || c == '\x0b' || c == '\x0c'

/-- Python `str.strip()`: drop whitespace from both ends. -/
def pstrip (t : PyStr) : PyStr :=
  ((t.dropWhile isWSc).reverse.dropWhile isWSc).reverse

/-- Embedding of `count_tokens` (docx_parser.py lines 23-26): zero for
blank text, otherwise `max 1 (len(text.strip()) // 4)`. -/
def count_tokens (t : PyStr) : Nat :=
  if pstrip t = [] then 0 else max 1 ((pstrip t).length / 4)

/-- Decimal digit character for `n % 10`; used to embed Python `str(int)`. -/
def digitChar (n : Nat) : Char :=
  match n % 10 with
  | 0 => '0' | 1 => '1' | 2 => '2' | 3 => '3' | 4 => '4'
  | 5 => '5' | 6 => '6' | 7 => '7' | 8 => '8' | _ => '9'

/-- Fuel-driven digit expansion (structural recursion, so that concrete
instances compute inside the kernel). -/
def natReprAux : Nat → Nat → PyStr
  | 0, n => [digitChar n]
  | fuel + 1, n =>
    if n < 10 then [digitChar n]
    else natReprAux fuel (n / 10) ++ [digitChar (n % 10)]

/-- Embedding of Python `str(n)` for a non-negative integer `n`. -/
def natRepr (n : Nat) : PyStr := natReprAux n n

theorem natReprAux_fuel {f₁ f₂ n : Nat} (h₁ : n ≤ f₁ * 9 + 9) (h₂ : n ≤ f₂ * 9 + 9) :
    natReprAux f₁ n = natReprAux f₂ n := by
  induction f₁ generalizing f₂ n with
  | zero =>
    have hn : n < 10 := by omega
    cases f₂ <;> simp [natReprAux, hn]
  | succ f ih =>
    cases f₂ with
    | zero =>
      have hn : n < 10 := by omega
      simp [natReprAux, hn]
    | succ g =>
      by_cases hn : n < 10
      · simp [natReprAux, hn]
      · have hd : n / 10 ≤ f * 9 + 9 := by omega
        have hd2 : n / 10 ≤ g * 9 + 9 := by
          have := Nat.div_le_self n 10
          have h10 : n / 10 * 10 ≤ n := Nat.div_mul_le_self n 10
          omega
        simp [natReprAux, hn, ih hd hd2]

theorem natRepr_eq (n : Nat) :
    natRepr n = if n < 10 then [digitChar n]
                else natRepr (n / 10) ++ [digitChar (n % 10)] := by
  unfold natRepr
  by_cases hn : n < 10
  · cases n <;> simp [natReprAux, hn]
  · rw [if_neg hn]
    cases n with
    | zero => omega
    | succ m =>
      simp only [natReprAux, hn, if_false]
      congr 1
      exact natReprAux_fuel (by omega) (by omega)

theorem digitChar_toNat (n : Nat) : (digitChar n).toNat = 48 + n % 10 := by
  have h : n % 10 < 10 := Nat.mod_lt _ (by omega)
  unfold digitChar
  generalize hm : n % 10 = m at h ⊢
  interval_cases m <;> decide

theorem digitChar_ne_underscore (n : Nat) : digitChar n ≠ '_' := by
  intro h
  have h1 := congrArg Char.toNat h
  rw [digitChar_toNat] at h1
  have h2 : ('_').toNat = 95 := by decide
  have h3 : n % 10 < 10 := Nat.mod_lt _ (by omega)
  omega

theorem natRepr_no_underscore (n : Nat) : '_' ∉ natRepr n := by
  induction n using Nat.strong_induction_on with
  | _ n ih =>
    rw [natRepr_eq]
    split
    · simp
      exact fun h => digitChar_ne_underscore n h.symm
    · intro hmem
      rcases List.mem_append.mp hmem with h | h
      · exact ih (n / 10) (Nat.div_lt_self (by omega) (by omega)) h
      · simp at h
        exact digitChar_ne_underscore (n % 10) h.symm

/-- Value of a digit string, inverse of `natRepr`. -/
def reprVal (l : PyStr) : Nat :=
  l.foldl (fun a c => a * 10 + (c.toNat - 48)) 0

theorem reprVal_natRepr (n : Nat) : reprVal (natRepr n) = n := by
  induction n using Nat.strong_induction_on with
  | _ n ih =>
    rw [natRepr_eq]
    split
    · simp [reprVal, digitChar_toNat]
      omega
    · have hdiv := ih (n / 10) (Nat.div_lt_self (by omega) (by omega))
      simp only [reprVal, List.foldl_append] at *
      simp [hdiv, digitChar_toNat]
      omega

theorem natRepr_inj {m n : Nat} (h : natRepr m = natRepr n) : m = n := by
  have := congrArg reprVal h
  rwa [reprVal_natRepr, reprVal_natRepr] at this

theorem append_underscore_inj {a b x y : PyStr}
    (hx : '_' ∉ x) (hy : '_' ∉ y)
    (h : a ++ '_' :: x = b ++ '_' :: y) : a = b ∧ x = y := by
  rcases List.append_eq_append_iff.mp h with ⟨mid, hb, hmid⟩ | ⟨mid, ha, hmid⟩
  · cases mid with
    | nil => simp at hb hmid; exact ⟨hb.symm ▸ rfl, hmid⟩
    | cons c cs =>
      simp at hmid
      rcases hmid with ⟨hc, hx'⟩
      exact absurd (hx' ▸ List.mem_append_right cs (List.mem_cons_self '_' y)) hx
  · cases mid with
    | nil => simp at ha hmid; exact ⟨ha, hmid.symm⟩
    | cons c cs =>
      simp at hmid
      rcases hmid with ⟨hc, hy'⟩
      exact absurd (hy' ▸ List.mem_append_right cs (List.mem_cons_self '_' x)) hy

/-- Injectivity of the `f-string` id scheme `s ++ "_" ++ str(n)`. -/
theorem id_encode_inj {s₁ s₂ : PyStr} {n₁ n₂ : Nat}
    (h : s₁ ++ '_' :: natRepr n₁ = s₂ ++ '_' :: natRepr n₂) :
    s₁ = s₂ ∧ n₁ = n₂ := by
  rcases append_underscore_inj (natRepr_no_underscore n₁) (natRepr_no_underscore n₂) h with
    ⟨hs, hn⟩
  exact ⟨hs, natRepr_inj hn⟩

/-!
Change detector (`src/change_detection/detector.py`).
-/

/-- Modelled from the spec: `DocumentSection` is declared in
`parsers/base_parser.py`, which is absent from the sources; spec section 3
gives its fields (`section_id`, `title`, `content`, `subsections`; order of
subsections is document order).  `tables` is omitted: no code under
verification reads it. -/
inductive DocumentSection where
  | mk (section_id : PyStr) (title : PyStr) (content : PyStr)
       (subsections : List DocumentSection)

instance : Inhabited DocumentSection := ⟨.mk [] [] [] []⟩

def DocumentSection.section_id : DocumentSection → PyStr
  | .mk sid _ _ _ => sid

def DocumentSection.title : DocumentSection → PyStr
  | .mk _ t _ _ => t

def DocumentSection.content : DocumentSection → PyStr
  | .mk _ _ c _ => c

def DocumentSection.subsections : DocumentSection → List DocumentSection
  | .mk _ _ _ subs => subs

mutual
/-- Order in which `_flatten_sections._rec` visits the tree: the node, then
its subsections recursively (detector.py lines 57-62). -/
def preorderSec : DocumentSection → List DocumentSection
  | .mk sid t c subs => .mk sid t c subs :: preorderList subs

def preorderList : List DocumentSection → List DocumentSection
  | [] => []
  | s :: ss => preorderSec s ++ preorderList ss
end

/-- Python dict assignment `m[k] = v`: overwrite in place if the key is
present (insertion order is kept), else append. -/
def dictSet (m : List (PyStr × DocumentSection)) (k : PyStr) (v : DocumentSection) :
    List (PyStr × DocumentSection) :=
  if k ∈ m.map Prod.fst then m.map (fun p => if p.1 = k then (k, v) else p)
  else m ++ [(k, v)]

/-- Python dict lookup `m[k]` (as an option). -/
def dictLookup (m : List (PyStr × DocumentSection)) (k : PyStr) : Option DocumentSection :=
  (m.find? (fun p => p.1 = k)).map Prod.snd

/-- Embedding of `_flatten_sections` (detector.py lines 53-63): a Python
dict from section_id to section, filled in preorder. -/
def flatten_sections (root : DocumentSection) : List (PyStr × DocumentSection) :=
  (preorderSec root).foldl (fun m s => dictSet m s.section_id s) []

/-- The `ChangeType` enum (detector.py lines 13-17). -/
inductive ChangeType where
  | ADDED | REMOVED | MODIFIED | MOVED
deriving DecidableEq

/-- Lowercase string value of the enum member (`ChangeType.value`). -/
def ChangeType.value : ChangeType → PyStr
  | .ADDED => pstr "added"
  | .REMOVED => pstr "removed"
  | .MODIFIED => pstr "modified"
  | .MOVED => pstr "moved"

/-- The `Change` dataclass (detector.py lines 20-27).  The `context` dict
always has the single key `"title"` in this code base, so it is embedded
as that title string. -/
structure Change where
  change_type : ChangeType
  section_id : PyStr
  old_content : PyStr
  new_content : PyStr
  similarity_score : ℚ
  context_title : PyStr
deriving DecidableEq

/-- Fuel-driven longest-common-subsequence length (structural recursion on
the fuel, so that concrete instances compute inside the kernel). -/
def lcsAux : Nat → PyStr → PyStr → Nat
  | 0, _, _ => 0
  | _ + 1, [], _ => 0
  | _ + 1, _ :: _, [] => 0
  | fuel + 1, a :: as, b :: bs =>
    if a = b then lcsAux fuel as bs + 1
    else max (lcsAux fuel (a :: as) bs) (lcsAux fuel as (b :: bs))

/-- Longest common subsequence length of two character lists. -/
def lcsLen (a b : PyStr) : Nat := lcsAux (a.length + b.length) a b

theorem lcsAux_le_left (fuel : Nat) (a b : PyStr) : lcsAux fuel a b ≤ a.length := by
  induction fuel generalizing a b with
  | zero => simp [lcsAux]
  | succ f ih =>
    match a, b with
    | [], _ => simp [lcsAux]
    | _ :: _, [] => simp [lcsAux]
    | x :: xs, y :: ys =>
      simp only [lcsAux]
      split
      · have := ih xs ys
        simp
        omega
      · have h1 := ih (x :: xs) ys
        have h2 := ih xs (y :: ys)
        simp at h1 h2 ⊢
        omega

theorem lcsAux_le_right (fuel : Nat) (a b : PyStr) : lcsAux fuel a b ≤ b.length := by
  induction fuel generalizing a b with
  | zero => simp [lcsAux]
  | succ f ih =>
    match a, b with
    | [], _ => simp [lcsAux]
    | _ :: _, [] => simp [lcsAux]
    | x :: xs, y :: ys =>
      simp only [lcsAux]
      split
      · have := ih xs ys
        simp
        omega
      · have h1 := ih (x :: xs) ys
        have h2 := ih xs (y :: ys)
        simp at h1 h2 ⊢
        omega

/-- Exact rational sum of two rationals, written with `mkRat` so that it
computes inside the kernel (`Rat.add` itself does not reduce there). -/
def ratAdd (x y : ℚ) : ℚ := mkRat (x.num * y.den + y.num * x.den) (x.den * y.den)

/-- Exact rational half of a rational, written with `mkRat` so that it
computes inside the kernel. -/
def ratHalf (x : ℚ) : ℚ := mkRat x.num (2 * x.den)

theorem ratAdd_eq (x y : ℚ) : ratAdd x y = x + y := by
  have hx : (x.den : ℚ) ≠ 0 := by
    exact_mod_cast x.den_nz
  have hy : (y.den : ℚ) ≠ 0 := by
    exact_mod_cast y.den_nz
  rw [ratAdd, Rat.mkRat_eq_div]
  push_cast
  conv_rhs => rw [← Rat.num_div_den x, ← Rat.num_div_den y]
  field_simp

theorem ratHalf_eq (x : ℚ) : ratHalf x = x / 2 := by
  have hx : (x.den : ℚ) ≠ 0 := by
    exact_mod_cast x.den_nz
  rw [ratHalf, Rat.mkRat_eq_div]
  push_cast
  conv_rhs => rw [← Rat.num_div_den x]
  field_simp
  left
  ring

/-- Modelled from the spec: `difflib.SequenceMatcher(None, a, b).ratio()`
(difflib is outside the repository), the character-level sequence-ratio
score of spec sections 4.4 and 8: twice the matched character count over
the total length, `1` for two empty strings, always in `[0, 1]`.
Written with `mkRat` (the exact value of the Python division) so that it
computes inside the kernel; see `seqRatio_eq`. -/
def seqRatio (a b : PyStr) : ℚ :=
  if a.length + b.length = 0 then 1
  else mkRat (2 * lcsLen a b) (a.length + b.length)

theorem seqRatio_eq (a b : PyStr) :
    seqRatio a b = if a.length + b.length = 0 then 1
                   else (2 * lcsLen a b : ℚ) / (a.length + b.length) := by
  unfold seqRatio
  split
  · rfl
  · rw [Rat.mkRat_eq_div]
    push_cast
    ring_nf

/-- Modelled from the spec: `fuzz.partial_ratio(a, b) / 100` (fuzzywuzzy is
outside the repository), the token-level partial-overlap score of spec
sections 4.4 and 8: the best sequence-ratio of the shorter string against
any window of the longer string of the same length, in `[0, 1]`. -/
def partialRatio (a b : PyStr) : ℚ :=
  let s := if a.length ≤ b.length then a else b
  let l := if a.length ≤ b.length then b else a
  (((List.range (l.length - s.length + 1)).map
      (fun i => seqRatio s ((l.drop i).take s.length))).foldr max 0)

/-- Embedding of `compute_similarity` (detector.py lines 42-50): the
average of the two scores, written with the kernel-computable rational
helpers; `compute_similarity_eq` gives the textbook form. -/
def compute_similarity (a b : PyStr) : ℚ :=
  ratHalf (ratAdd (seqRatio a b) (partialRatio a b))

theorem compute_similarity_eq (a b : PyStr) :
    compute_similarity a b = (seqRatio a b + partialRatio a b) / 2 := by
  rw [compute_similarity, ratAdd_eq, ratHalf_eq]

/-- The `ChangeDetector` object: its only state is the threshold. -/
structure ChangeDetector where
  similarity_threshold : ℚ

/-- Embedding of `ChangeDetector.__init__` (detector.py lines 71-76): the
result is wrapped in `Except` because a Python constructor may raise; this
one stores the threshold and performs no validation, so it never does. -/
def ChangeDetector.init (similarity_threshold : ℚ) : Except PyStr ChangeDetector :=
  .ok { similarity_threshold := similarity_threshold }

/-- Keys of both maps that the `shared` set of detector.py line 120 holds,
listed in old-map insertion order (the mathematical content of the set;
iteration order is supplied separately, see `detect_changes`). -/
def sharedKeys (old_map new_map : List (PyStr × DocumentSection)) : List PyStr :=
  (old_map.map Prod.fst).filter (fun k => k ∈ new_map.map Prod.fst)

/-- Loop 1 of `detect_changes` (detector.py lines 96-105): one ADDED
Change for every id of the new map that is absent from the old map, in
new-map insertion order. -/
def addedOf (old_map new_map : List (PyStr × DocumentSection)) : List Change :=
  new_map.filterMap (fun p =>
    if p.1 ∈ old_map.map Prod.fst then none
    else some { change_type := .ADDED, section_id := p.1, old_content := [],
                new_content := p.2.content, similarity_score := 1,
                context_title := p.2.title })

/-- Loop 2 of `detect_changes` (detector.py lines 108-117): one REMOVED
Change for every id of the old map that is absent from the new map, in
old-map insertion order. -/
def removedOf (old_map new_map : List (PyStr × DocumentSection)) : List Change :=
  old_map.filterMap (fun p =>
    if p.1 ∈ new_map.map Prod.fst then none
    else some { change_type := .REMOVED, section_id := p.1,
                old_content := p.2.content, new_content := [],
                similarity_score := 1, context_title := p.2.title })

/-- Loop 3 of `detect_changes` (detector.py lines 120-134): for each
shared id (in the order the iteration presents it), a MODIFIED Change
when the contents differ and their similarity is below the threshold. -/
def modifiedOf (threshold : ℚ) (old_map new_map : List (PyStr × DocumentSection))
    (iter : List PyStr) : List Change :=
  iter.filterMap (fun sid =>
    match dictLookup old_map sid, dictLookup new_map sid with
    | some osec, some nsec =>
      if osec.content ≠ nsec.content then
        let score := compute_similarity osec.content nsec.content
        if score < threshold then
          some { change_type := .MODIFIED, section_id := sid,
                 old_content := osec.content, new_content := nsec.content,
                 similarity_score := score, context_title := nsec.title }
        else none
      else none
    | _, _ => none)

/-- Embedding of `ChangeDetector.detect_changes` (detector.py lines
78-136).  `enumSet` models the iteration order of the Python `set`
`shared` on line 120: CPython enumerates a set of strings in an order
determined by the process hash seed, so the embedding takes the
enumeration as a parameter; a faithful run supplies a permutation of the
set elements. -/
def detect_changes (enumSet : List PyStr → List PyStr)
    (threshold : ℚ) (old_doc new_doc : DocumentSection) : List Change :=
  let old_map := flatten_sections old_doc
  let new_map := flatten_sections new_doc
  addedOf old_map new_map ++ removedOf old_map new_map ++
    modifiedOf threshold old_map new_map (enumSet (sharedKeys old_map new_map))

/-!
Parser and chunker (`src/parsers/docx_parser.py`).
-/

/-- The chunk dict built by `parse_docx` (docx_parser.py lines 102-129,
177-186): `chunk_type` is the literal string `"heading"` or
`"paragraph"`; `title` is `None` on paragraph chunks. -/
structure Chunk where
  section_id : PyStr
  parent_section : Option PyStr
  title : Option PyStr
  chunk_id : PyStr
  content : PyStr
  chunk_type : PyStr
  position : Nat
  tokens : Nat
deriving DecidableEq

/-- Greedy sentence accumulation loop of `split_long_text` (docx_parser.py
lines 38-47): `cur` is the running buffer. -/
def sltGo (maxT : Nat) (cur : PyStr) : List PyStr → List PyStr
  | [] => if pstrip cur = [] then [] else [pstrip cur]
  | s :: rest =>
    let cand := if cur = [] then s else cur ++ pstr " " ++ s
    if count_tokens cand > maxT ∧ cur ≠ [] then pstrip cur :: sltGo maxT s rest
    else sltGo maxT cand rest

/-- Embedding of `split_long_text` (docx_parser.py lines 32-48).  `sents`
is the spaCy sentence segmenter, an external collaborator modelled from
the spec (section 4.2: segment content into sentence-like units; the
source keeps only stripped, non-empty sentence texts). -/
def split_long_text (sents : PyStr → List PyStr) (maxT : Nat) (text : PyStr) : List PyStr :=
  if pstrip text = [] then []
  else
    let ss := sents text
    if ss = [] then [pstrip text] else sltGo maxT [] ss

theorem dropWhile_length_le {α : Type} (p : α → Bool) (l : List α) :
    (l.dropWhile p).length ≤ l.length := by
  induction l with
  | nil => simp
  | cons a l ih =>
    by_cases h : p a
    · simp [List.dropWhile, h]
      omega
    · simp [List.dropWhile, h]

/-- Fuel-driven helper for `dotGroups` (structural recursion on the fuel,
so that concrete instances compute inside the kernel). -/
def dotGroupsAux : Nat → PyStr → PyStr × PyStr
  | 0, s => ([], s)
  | fuel + 1, s =>
    match s with
    | '.' :: rest =>
      let ds := rest.takeWhile Char.isDigit
      if ds = [] then ([], '.' :: rest)
      else
        let p := dotGroupsAux fuel (rest.dropWhile Char.isDigit)
        ('.' :: ds ++ p.1, p.2)
    | other => ([], other)

/-- Consume the regex fragment `(\.\d+)*` greedily: repeated groups of a
dot followed by at least one digit.  Returns (matched, rest). -/
def dotGroups (s : PyStr) : PyStr × PyStr := dotGroupsAux s.length s

/-- Embedding of `is_heading` (docx_parser.py lines 50-51): the stripped
text matches `^\d+(\.\d+)*\s`. -/
def is_heading (t : PyStr) : Bool :=
  let s := pstrip t
  let ds := s.takeWhile Char.isDigit
  if ds = [] then false
  else
    match (dotGroups (s.dropWhile Char.isDigit)).2 with
    | c :: _ => isWSc c
    | [] => false

/-- Embedding of `extract_section_number` (docx_parser.py lines 53-55):
the maximal `\d+(\.\d+)*` at the start of the stripped text. -/
def extract_section_number (t : PyStr) : Option PyStr :=
  let s := pstrip t
  let ds := s.takeWhile Char.isDigit
  if ds = [] then none
  else some (ds ++ (dotGroups (s.dropWhile Char.isDigit)).1)

/-- Embedding of `extract_title` (docx_parser.py lines 57-58): the stripped
text with the leading `\d+(\.\d+)*\s*` removed. -/
def extract_title (t : PyStr) : PyStr :=
  let s := pstrip t
  let ds := s.takeWhile Char.isDigit
  if ds = [] then s
  else ((dotGroups (s.dropWhile Char.isDigit)).2).dropWhile isWSc

/-- Python `str.split(".")`. -/
def splitOnDot : PyStr → List PyStr
  | [] => [[]]
  | '.' :: rest => [] :: splitOnDot rest
  | c :: rest =>
    match splitOnDot rest with
    | g :: gs => (c :: g) :: gs
    | [] => [[c]]

/-- Parent id `".".join(sec.split(".")[:-1])` (docx_parser.py line 174). -/
def dotParent (sec : PyStr) : PyStr :=
  List.intercalate (pstr ".") (splitOnDot sec).dropLast

/-- The inner absorbing loop of `merge_small_chunks` (docx_parser.py lines
66-79): keep absorbing the successor while the current chunk is under the
minimum, the successor is a non-heading chunk of the same section, and the
combined text stays within the maximum. -/
def mergeAbsorb (minT maxT : Nat) (c : Chunk) : List Chunk → Chunk × List Chunk
  | [] => (c, [])
  | n :: rest =>
    if c.tokens < minT ∧ n.chunk_type ≠ pstr "heading" ∧ c.section_id = n.section_id then
      let combined := c.content ++ pstr " " ++ n.content
      if count_tokens combined ≤ maxT then
        mergeAbsorb minT maxT
          { c with content := combined, tokens := count_tokens combined } rest
      else (c, n :: rest)
    else (c, n :: rest)

theorem mergeAbsorb_snd_length (minT maxT : Nat) (c : Chunk) (l : List Chunk) :
    (mergeAbsorb minT maxT c l).2.length ≤ l.length := by
  induction l generalizing c with
  | nil => simp [mergeAbsorb]
  | cons n rest ih =>
    simp only [mergeAbsorb]
    split
    · split
      · exact le_trans (ih _) (by simp)
      · simp
    · simp

/-- Fuel-driven outer loop of `merge_small_chunks` (structural recursion
on the fuel, so that concrete instances compute inside the kernel; any
fuel at least the list length gives the loop of the source, see
`merge_small_chunks_nil`, `merge_small_chunks_heading` and
`merge_small_chunks_absorb`). -/
def mergeGo (minT maxT : Nat) : Nat → List Chunk → List Chunk
  | _, [] => []
  | 0, l => l
  | fuel + 1, c :: rest =>
    if c.chunk_type = pstr "heading" then c :: mergeGo minT maxT fuel rest
    else
      let p := mergeAbsorb minT maxT c rest
      p.1 :: mergeGo minT maxT fuel p.2

/-- Embedding of `merge_small_chunks` (docx_parser.py lines 60-81). -/
def merge_small_chunks (minT maxT : Nat) (l : List Chunk) : List Chunk :=
  mergeGo minT maxT l.length l

theorem mergeGo_fuel (minT maxT : Nat) (f₁ : Nat) :
    ∀ (n : Nat) (l : List Chunk), l.length ≤ f₁ → l.length ≤ n →
      mergeGo minT maxT f₁ l = mergeGo minT maxT n l := by
  induction f₁ with
  | zero =>
    intro n l h₁ h₂
    have : l = [] := by
      cases l
      · rfl
      · simp at h₁
    subst this
    cases n <;> simp [mergeGo]
  | succ f ih =>
    intro n l h₁ h₂
    cases l with
    | nil => cases n <;> simp [mergeGo]
    | cons c rest =>
      cases n with
      | zero => simp at h₂
      | succ g =>
        simp only [mergeGo]
        simp only [List.length_cons] at h₁ h₂
        split
        · rw [ih g rest (by omega) (by omega)]
        · have hal := mergeAbsorb_snd_length minT maxT c rest
          rw [ih g (mergeAbsorb minT maxT c rest).2 (by omega) (by omega)]

theorem merge_small_chunks_nil (minT maxT : Nat) :
    merge_small_chunks minT maxT [] = [] := rfl

theorem merge_small_chunks_heading (minT maxT : Nat) (c : Chunk) (rest : List Chunk)
    (h : c.chunk_type = pstr "heading") :
    merge_small_chunks minT maxT (c :: rest) = c :: merge_small_chunks minT maxT rest := by
  unfold merge_small_chunks
  simp only [List.length_cons, mergeGo, h, if_true]

theorem merge_small_chunks_absorb (minT maxT : Nat) (c : Chunk) (rest : List Chunk)
    (h : ¬ c.chunk_type = pstr "heading") :
    merge_small_chunks minT maxT (c :: rest) =
      (mergeAbsorb minT maxT c rest).1 ::
        merge_small_chunks minT maxT (mergeAbsorb minT maxT c rest).2 := by
  unfold merge_small_chunks
  simp only [List.length_cons, mergeGo, h, if_false]
  have hal := mergeAbsorb_snd_length minT maxT c rest
  rw [mergeGo_fuel minT maxT rest.length (mergeAbsorb minT maxT c rest).2.length
        (mergeAbsorb minT maxT c rest).2 hal le_rfl]

/-- The id re-assignment pass of `parse_docx` (docx_parser.py lines
193-199): per-section counters, `chunk_id = f"sec_idx"`, `position = idx`.
`cnt` is the counters dict as a total function (missing key = 0). -/
def renumber (cnt : PyStr → Nat) : List Chunk → List Chunk
  | [] => []
  | c :: rest =>
    let idx := cnt c.section_id
    { c with chunk_id := c.section_id ++ '_' :: natRepr idx, position := idx }
      :: renumber (fun s => if s = c.section_id then idx + 1 else cnt s) rest

/-- Modelled from the spec: the document as the element streams that
`parse_docx` iterates (spec section 6: an ordered sequence of paragraph
elements plus table elements; python-docx is an external collaborator).
`paragraphs` are the body paragraph texts in document order,
`headerParagraphs` and `headerTableCells` the texts of the first section
header, `tableCells` the body table cell texts in document order. -/
structure PyDoc where
  paragraphs : List PyStr
  headerParagraphs : List PyStr
  headerTableCells : List PyStr
  tableCells : List PyStr

/-- Mutable parse state of `parse_docx`: the chunk list plus the
`current_section`, `parent` and `pos` variables. -/
structure ParseSt where
  chunks : List Chunk
  current_section : PyStr
  parent : Option PyStr
  pos : Nat

/-- The synthetic preamble heading chunk `parse_docx` starts from
(docx_parser.py lines 102-111). -/
def preambleChunk : Chunk :=
  { section_id := pstr "0_preamble", parent_section := none,
    title := some (pstr "Preamble"), chunk_id := pstr "0_preamble_0",
    content := [], chunk_type := pstr "heading", position := 0, tokens := 0 }

/-- Embedding of the closure `add_text` (docx_parser.py lines 116-129):
append one paragraph chunk per split piece, incrementing `pos` first. -/
def addText (sents : PyStr → List PyStr) (maxT : Nat) (st : ParseSt) (text : PyStr) :
    ParseSt :=
  (split_long_text sents maxT text).foldl (fun s sub =>
    { s with
      pos := s.pos + 1,
      chunks := s.chunks ++
        [{ section_id := s.current_section, parent_section := s.parent,
           title := none,
           chunk_id := s.current_section ++ '_' :: natRepr (s.pos + 1),
           content := sub, chunk_type := pstr "paragraph",
           position := s.pos + 1, tokens := count_tokens sub }] }) st

/-- Python `txt.lower().startswith("contents")`. -/
def startsContents (t : PyStr) : Bool :=
  (t.map Char.toLower).take 8 = pstr "contents"

/-- Loop 1 of `parse_docx` (docx_parser.py lines 132-140): body paragraphs
up to the first Contents marker, returning the break index if found. -/
def loop1 (sents : PyStr → List PyStr) (maxT : Nat) :
    ParseSt → Nat → List PyStr → ParseSt × Option Nat
  | st, _, [] => (st, none)
  | st, idx, p :: ps =>
    let txt := pstrip p
    if txt = [] then loop1 sents maxT st (idx + 1) ps
    else if startsContents txt then (st, some idx)
    else loop1 sents maxT (addText sents maxT st txt) (idx + 1) ps

/-- One step of loop 4 of `parse_docx` (docx_parser.py lines 164-189):
headings open a new section and append a heading chunk; other non-empty
text is added to the current section. -/
def procBody (sents : PyStr → List PyStr) (maxT : Nat) (st : ParseSt) (p : PyStr) :
    ParseSt :=
  let txt := pstrip p
  if txt = [] then st
  else if is_heading txt then
    match extract_section_number txt with
    | some sec =>
      let par := if '.' ∈ sec then some (dotParent sec) else none
      let title := extract_title txt
      { chunks := st.chunks ++
          [{ section_id := sec, parent_section := par, title := some title,
             chunk_id := sec ++ '_' :: natRepr 0, content := title,
             chunk_type := pstr "heading", position := 0,
             tokens := count_tokens title }],
        current_section := sec, parent := par, pos := 0 }
    | none => st
  else addText sents maxT st txt

/-- The initial parse state of `parse_docx` (docx_parser.py lines
101-114): the preamble chunk list and cursor variables. -/
def parseInit : ParseSt :=
  { chunks := [preambleChunk], current_section := pstr "0_preamble",
    parent := none, pos := 0 }

/-- Loops 2 and 3 of `parse_docx` (docx_parser.py lines 142-161) apply
this step to each header paragraph or table cell text: skip blank text,
else add it to the current section. -/
def textStep (sents : PyStr → List PyStr) (maxT : Nat) (s : ParseSt) (p : PyStr) :
    ParseSt :=
  if pstrip p = [] then s else addText sents maxT s (pstrip p)

/-- The chunk-collection phase of `parse_docx` (docx_parser.py lines
101-189): the preamble state, then loop 1 (body up to Contents), the
header paragraphs and header table cells, the body table cells, and
loop 4 (body from the Contents break point). -/
def collectChunks (sents : PyStr → List PyStr) (maxT : Nat) (doc : PyDoc) : ParseSt :=
  (doc.paragraphs.drop ((loop1 sents maxT parseInit 0 doc.paragraphs).2.getD 0)).foldl
    (procBody sents maxT)
    (doc.tableCells.foldl (textStep sents maxT)
      (doc.headerTableCells.foldl (textStep sents maxT)
        (doc.headerParagraphs.foldl (textStep sents maxT)
          (loop1 sents maxT parseInit 0 doc.paragraphs).1)))

/-- Embedding of `parse_docx` (docx_parser.py lines 84-201) over the
modelled document: collect chunks through the four loops, then merge and
renumber.  `maxT`, `minT` are the `max_tokens` / `min_chunk_tokens`
arguments that the source stores into the module globals. -/
def parse_docx (sents : PyStr → List PyStr) (doc : PyDoc) (maxT minT : Nat) :
    List Chunk :=
  renumber (fun _ => 0)
    (merge_small_chunks minT maxT (collectChunks sents maxT doc).chunks)

/-!
Vector store (`src/utils/vector_db.py`).
-/

/-- A Python value as it appears in the metadata dicts of
`VectorDB.store_changes`. -/
inductive PyVal where
  | str (s : PyStr)
  | rat (q : ℚ)
deriving DecidableEq

/-- Python attribute lookup on a `Change` instance: exactly the fields the
dataclass declares (detector.py lines 20-27).  Any other name — in
particular `chunk_id`, which `store_changes` reads — yields `none`, the
embedding of an `AttributeError`. -/
def Change.getattr (c : Change) (name : PyStr) : Option PyVal :=
  if name = pstr "change_type" then some (.str c.change_type.value)
  else if name = pstr "section_id" then some (.str c.section_id)
  else if name = pstr "old_content" then some (.str c.old_content)
  else if name = pstr "new_content" then some (.str c.new_content)
  else if name = pstr "similarity_score" then some (.rat c.similarity_score)
  else if name = pstr "context" then some (.str c.context_title)
  else none

/-- The metadata dict built for one change inside the `store_changes` loop
(vector_db.py lines 48-61); fails like Python does if an attribute is
missing.  `text` is `new_content if new_content else old_content`. -/
def buildMeta (c : Change) : Except PyStr (List (PyStr × PyVal)) :=
  let text := if c.new_content ≠ [] then c.new_content else c.old_content
  match c.getattr (pstr "section_id"), c.getattr (pstr "chunk_id"),
        c.getattr (pstr "change_type"), c.getattr (pstr "similarity_score") with
  | some sid, some cid, some cty, some sim =>
    .ok [(pstr "section_id", sid), (pstr "chunk_id", cid),
         (pstr "change_type", cty), (pstr "similarity", sim),
         (pstr "chunk_text", .str text)]
  | _, none, _, _ => .error (pstr "AttributeError: chunk_id")
  | _, _, _, _ => .error (pstr "AttributeError")

/-- Embedding of `VectorDB.store_changes` (vector_db.py lines 40-74):
per change, embed `new_content if new_content else old_content` and build
its metadata dict; then rebuild the index from the stacked embeddings
(`np.vstack` raises on an empty list).  `encode` is the external
sentence-transformer encoder, modelled from the spec as an opaque
function.  Returns the (embeddings, metadata) pair that would be
persisted, or the error raised. -/
def storeLoop (encode : PyStr → List ℚ) :
    List Change → List (List ℚ) → List (List (PyStr × PyVal)) →
    Except PyStr (List (List ℚ) × List (List (PyStr × PyVal)))
  | [], embs, meta => .ok (embs, meta)
  | c :: cs, embs, meta =>
    let text := if c.new_content ≠ [] then c.new_content else c.old_content
    match buildMeta c with
    | .ok m => storeLoop encode cs (embs ++ [encode text]) (meta ++ [m])
    | .error e => .error e

def store_changes (encode : PyStr → List ℚ) (changes : List Change) :
    Except PyStr (List (List ℚ) × List (List (PyStr × PyVal))) :=
  match storeLoop encode changes [] [] with
  | .error e => .error e
  | .ok (embs, meta) =>
    if embs.isEmpty then
      .error (pstr "ValueError: need at least one array to concatenate")
    else .ok (embs, meta)

/-!
Theorems.
-/

theorem getattr_chunk_id_none (c : Change) : c.getattr (pstr "chunk_id") = none := by
  have h1 : pstr "chunk_id" ≠ pstr "change_type" := by decide
  have h2 : pstr "chunk_id" ≠ pstr "section_id" := by decide
  have h3 : pstr "chunk_id" ≠ pstr "old_content" := by decide
  have h4 : pstr "chunk_id" ≠ pstr "new_content" := by decide
  have h5 : pstr "chunk_id" ≠ pstr "similarity_score" := by decide
  have h6 : pstr "chunk_id" ≠ pstr "context" := by decide
  simp [Change.getattr, h1, h2, h3, h4, h5, h6]

theorem buildMeta_error (c : Change) :
    buildMeta c = .error (pstr "AttributeError: chunk_id") := by
  unfold buildMeta
  rw [getattr_chunk_id_none]
  rcases h : c.getattr (pstr "section_id") with _ | v <;> simp [Change.getattr] at h <;>
    simp [← h]

/-- C9: for every non-empty list of Change records, store_changes raises
an AttributeError instead of storing anything — the `Change` dataclass
declares no `chunk_id` field, yet the metadata loop reads `c.chunk_id`,
so the claimed success-and-store behavior never happens. -/
theorem store_changes_raises (encode : PyStr → List ℚ) (c : Change) (cs : List Change) :
    store_changes encode (c :: cs) = .error (pstr "AttributeError: chunk_id") := by
  unfold store_changes storeLoop
  rw [buildMeta_error]

/-- C8 counterexample: constructing the detector with similarity
threshold 3/2, which lies outside the open interval (0, 1), succeeds and
silently stores the invalid threshold instead of failing with an error. -/
theorem detector_init_no_validation_counterexample :
    ChangeDetector.init (3 / 2) = .ok { similarity_threshold := 3 / 2 } ∧
      ¬ ((3 / 2 : ℚ) < 1) := by
  constructor
  · rfl
  · norm_num

/-- An empty modelled document, used to exercise configuration handling. -/
def emptyDoc : PyDoc :=
  { paragraphs := [], headerParagraphs := [], headerTableCells := [], tableCells := [] }

/-- C8 amended: no configuration validation exists — the detector
constructor accepts any threshold (inside or outside (0, 1)) and stores it
unchanged, and parse_docx runs to completion under non-positive token
bounds instead of failing at construction time. -/
theorem no_config_validation :
    (∀ t : ℚ, ChangeDetector.init t = .ok { similarity_threshold := t }) ∧
      (∀ sents : PyStr → List PyStr, parse_docx sents emptyDoc 0 0 = [preambleChunk]) := by
  constructor
  · intro t
    rfl
  · intro sents
    rfl

theorem mem_addedOf {o n : List (PyStr × DocumentSection)} {c : Change}
    (h : c ∈ addedOf o n) :
    c.change_type = .ADDED ∧ c.similarity_score = 1 ∧ c.old_content = [] := by
  rcases List.mem_filterMap.mp h with ⟨p, hp, hf⟩
  by_cases hm : p.1 ∈ o.map Prod.fst
  · simp [hm] at hf
  · simp [hm] at hf
    rw [← hf]
    exact ⟨rfl, rfl, rfl⟩

theorem mem_removedOf {o n : List (PyStr × DocumentSection)} {c : Change}
    (h : c ∈ removedOf o n) :
    c.change_type = .REMOVED ∧ c.similarity_score = 1 ∧ c.new_content = [] := by
  rcases List.mem_filterMap.mp h with ⟨p, hp, hf⟩
  by_cases hm : p.1 ∈ n.map Prod.fst
  · simp [hm] at hf
  · simp [hm] at hf
    rw [← hf]
    exact ⟨rfl, rfl, rfl⟩

theorem mem_modifiedOf {θ : ℚ} {o n : List (PyStr × DocumentSection)}
    {iter : List PyStr} {c : Change} (h : c ∈ modifiedOf θ o n iter) :
    c.change_type = .MODIFIED := by
  rcases List.mem_filterMap.mp h with ⟨sid, hs, hf⟩
  rcases h1 : dictLookup o sid with _ | os <;> rw [h1] at hf
  · simp [modifiedOf] at hf
  · rcases h2 : dictLookup n sid with _ | ns <;> rw [h2] at hf
    · simp at hf
    · simp only at hf
      split at hf
      · split at hf
        · rw [Option.some_inj] at hf
          rw [← hf]
        · exact absurd hf (by simp)
      · exact absurd hf (by simp)

theorem addedOf_map_section_id (o n : List (PyStr × DocumentSection)) :
    (addedOf o n).map Change.section_id =
      (n.map Prod.fst).filter (fun k => k ∉ o.map Prod.fst) := by
  induction n with
  | nil => rfl
  | cons p ps ih =>
    by_cases hm : p.1 ∈ o.map Prod.fst
    · simp only [addedOf, List.filterMap_cons, hm, if_true, List.map_cons,
        List.filter_cons] at *
      simpa [hm] using ih
    · simp only [addedOf, List.filterMap_cons, hm, if_false, List.map_cons,
        List.filter_cons] at *
      simpa [hm] using ih

theorem removedOf_map_section_id (o n : List (PyStr × DocumentSection)) :
    (removedOf o n).map Change.section_id =
      (o.map Prod.fst).filter (fun k => k ∉ n.map Prod.fst) := by
  induction o with
  | nil => rfl
  | cons p ps ih =>
    by_cases hm : p.1 ∈ n.map Prod.fst
    · simp only [removedOf, List.filterMap_cons, hm, if_true, List.map_cons,
        List.filter_cons] at *
      simpa [hm] using ih
    · simp only [removedOf, List.filterMap_cons, hm, if_false, List.map_cons,
        List.filter_cons] at *
      simpa [hm] using ih

theorem detect_changes_split (enumSet : List PyStr → List PyStr) (θ : ℚ)
    (old_doc new_doc : DocumentSection) :
    detect_changes enumSet θ old_doc new_doc =
      addedOf (flatten_sections old_doc) (flatten_sections new_doc) ++
      removedOf (flatten_sections old_doc) (flatten_sections new_doc) ++
      modifiedOf θ (flatten_sections old_doc) (flatten_sections new_doc)
        (enumSet (sharedKeys (flatten_sections old_doc) (flatten_sections new_doc))) := rfl

theorem detect_changes_filter_added (enumSet : List PyStr → List PyStr) (θ : ℚ)
    (old_doc new_doc : DocumentSection) :
    (detect_changes enumSet θ old_doc new_doc).filter
        (fun c => c.change_type = ChangeType.ADDED) =
      addedOf (flatten_sections old_doc) (flatten_sections new_doc) := by
  rw [detect_changes_split, List.filter_append, List.filter_append]
  have ha : (addedOf (flatten_sections old_doc) (flatten_sections new_doc)).filter
      (fun c => c.change_type = ChangeType.ADDED) = _ :=
    List.filter_eq_self.mpr (fun c hc => by simp [(mem_addedOf hc).1])
  have hr : (removedOf (flatten_sections old_doc) (flatten_sections new_doc)).filter
      (fun c => c.change_type = ChangeType.ADDED) = [] :=
    List.filter_eq_nil_iff.mpr (fun c hc => by simp [(mem_removedOf hc).1])
  have hm : (modifiedOf θ (flatten_sections old_doc) (flatten_sections new_doc)
      (enumSet (sharedKeys (flatten_sections old_doc) (flatten_sections new_doc)))).filter
      (fun c => c.change_type = ChangeType.ADDED) = [] :=
    List.filter_eq_nil_iff.mpr (fun c hc => by simp [mem_modifiedOf hc])
  rw [ha, hr, hm]
  simp

theorem detect_changes_filter_removed (enumSet : List PyStr → List PyStr) (θ : ℚ)
    (old_doc new_doc : DocumentSection) :
    (detect_changes enumSet θ old_doc new_doc).filter
        (fun c => c.change_type = ChangeType.REMOVED) =
      removedOf (flatten_sections old_doc) (flatten_sections new_doc) := by
  rw [detect_changes_split, List.filter_append, List.filter_append]
  have ha : (addedOf (flatten_sections old_doc) (flatten_sections new_doc)).filter
      (fun c => c.change_type = ChangeType.REMOVED) = [] :=
    List.filter_eq_nil_iff.mpr (fun c hc => by simp [(mem_addedOf hc).1])
  have hr : (removedOf (flatten_sections old_doc) (flatten_sections new_doc)).filter
      (fun c => c.change_type = ChangeType.REMOVED) = _ :=
    List.filter_eq_self.mpr (fun c hc => by simp [(mem_removedOf hc).1])
  have hm : (modifiedOf θ (flatten_sections old_doc) (flatten_sections new_doc)
      (enumSet (sharedKeys (flatten_sections old_doc) (flatten_sections new_doc)))).filter
      (fun c => c.change_type = ChangeType.REMOVED) = [] :=
    List.filter_eq_nil_iff.mpr (fun c hc => by simp [mem_modifiedOf hc])
  rw [ha, hr, hm]
  simp

/-- C1: with no version map, detect_changes partitions the id sets
completely — an ADDED Change (with similarity 1 and empty old content) for
exactly the ids in the flattened new map missing from the old map, a
REMOVED Change (with similarity 1 and empty new content) for exactly the
ids in the flattened old map missing from the new map, and no id reported
under both outcomes. -/
theorem detect_changes_partition (enumSet : List PyStr → List PyStr) (θ : ℚ)
    (old_doc new_doc : DocumentSection) :
    ((detect_changes enumSet θ old_doc new_doc).filter
        (fun c => c.change_type = ChangeType.ADDED)).map Change.section_id =
      ((flatten_sections new_doc).map Prod.fst).filter
        (fun k => k ∉ (flatten_sections old_doc).map Prod.fst) ∧
    ((detect_changes enumSet θ old_doc new_doc).filter
        (fun c => c.change_type = ChangeType.REMOVED)).map Change.section_id =
      ((flatten_sections old_doc).map Prod.fst).filter
        (fun k => k ∉ (flatten_sections new_doc).map Prod.fst) ∧
    (∀ c ∈ detect_changes enumSet θ old_doc new_doc,
      c.change_type = ChangeType.ADDED →
        c.similarity_score = 1 ∧ c.old_content = []) ∧
    (∀ c ∈ detect_changes enumSet θ old_doc new_doc,
      c.change_type = ChangeType.REMOVED →
        c.similarity_score = 1 ∧ c.new_content = []) ∧
    ∀ sid : PyStr,
      ¬ (sid ∈ ((detect_changes enumSet θ old_doc new_doc).filter
            (fun c => c.change_type = ChangeType.ADDED)).map Change.section_id ∧
         sid ∈ ((detect_changes enumSet θ old_doc new_doc).filter
            (fun c => c.change_type = ChangeType.REMOVED)).map Change.section_id) := by
  have hA := detect_changes_filter_added enumSet θ old_doc new_doc
  have hR := detect_changes_filter_removed enumSet θ old_doc new_doc
  refine ⟨?_, ?_, ?_, ?_, ?_⟩
  · rw [hA, addedOf_map_section_id]
  · rw [hR, removedOf_map_section_id]
  · intro c hc hty
    rw [detect_changes_split] at hc
    rcases List.mem_append.mp hc with hc | hc
    rcases List.mem_append.mp hc with hc | hc
    · exact ⟨(mem_addedOf hc).2.1, (mem_addedOf hc).2.2⟩
    · rw [(mem_removedOf hc).1] at hty
      cases hty
    · rw [mem_modifiedOf hc] at hty
      cases hty
  · intro c hc hty
    rw [detect_changes_split] at hc
    rcases List.mem_append.mp hc with hc | hc
    rcases List.mem_append.mp hc with hc | hc
    · rw [(mem_addedOf hc).1] at hty
      cases hty
    · exact ⟨(mem_removedOf hc).2.1, (mem_removedOf hc).2.2⟩
    · rw [mem_modifiedOf hc] at hty
      cases hty
  · intro sid hsid
    rcases hsid with ⟨h1, h2⟩
    rw [hA, addedOf_map_section_id] at h1
    rw [hR, removedOf_map_section_id] at h2
    have h1m := List.of_mem_filter h1
    have h2k := List.mem_of_mem_filter h2
    simp only [decide_eq_true_eq] at h1m
    exact h1m h2k

/-- Rank of a change type in the output order of `detect_changes`:
ADDED entries are appended first, then REMOVED, then MODIFIED. -/
def typeRank : ChangeType → Nat
  | .ADDED => 0
  | .REMOVED => 1
  | .MODIFIED => 2
  | .MOVED => 3

theorem pairwise_le_of_const {l : List Nat} {k : Nat} (h : ∀ x ∈ l, x = k) :
    l.Pairwise (· ≤ ·) := by
  induction l with
  | nil => exact List.Pairwise.nil
  | cons a l ih =>
    constructor
    · intro b hb
      rw [h a (List.mem_cons_self a l), h b (List.mem_cons_of_mem a hb)]
    · exact ih (fun x hx => h x (List.mem_cons_of_mem a hx))

/-- C4 (amended): the output of detect_changes is grouped with all ADDED
changes first, then all REMOVED, then all MODIFIED; within ADDED the
section ids follow the new map's insertion (preorder) order and within
REMOVED the old map's, not ascending section_id order. -/
theorem detect_changes_grouped_by_type (enumSet : List PyStr → List PyStr) (θ : ℚ)
    (old_doc new_doc : DocumentSection) :
    ((detect_changes enumSet θ old_doc new_doc).map
        (fun c => typeRank c.change_type)).Sorted (· ≤ ·) ∧
    ((detect_changes enumSet θ old_doc new_doc).filter
        (fun c => c.change_type = ChangeType.ADDED)).map Change.section_id =
      ((flatten_sections new_doc).map Prod.fst).filter
        (fun k => k ∉ (flatten_sections old_doc).map Prod.fst) ∧
    ((detect_changes enumSet θ old_doc new_doc).filter
        (fun c => c.change_type = ChangeType.REMOVED)).map Change.section_id =
      ((flatten_sections old_doc).map Prod.fst).filter
        (fun k => k ∉ (flatten_sections new_doc).map Prod.fst) := by
  refine ⟨?_, ?_, ?_⟩
  · rw [detect_changes_split, List.map_append, List.map_append]
    rw [List.Sorted, List.pairwise_append, List.pairwise_append]
    have hA : ∀ x ∈ (addedOf (flatten_sections old_doc) (flatten_sections new_doc)).map
        (fun c => typeRank c.change_type), x = 0 := by
      intro x hx
      rcases List.mem_map.mp hx with ⟨c, hc, hx⟩
      rw [← hx, (mem_addedOf hc).1]
      rfl
    have hR : ∀ x ∈ (removedOf (flatten_sections old_doc) (flatten_sections new_doc)).map
        (fun c => typeRank c.change_type), x = 1 := by
      intro x hx
      rcases List.mem_map.mp hx with ⟨c, hc, hx⟩
      rw [← hx, (mem_removedOf hc).1]
      rfl
    have hM : ∀ x ∈ (modifiedOf θ (flatten_sections old_doc) (flatten_sections new_doc)
        (enumSet (sharedKeys (flatten_sections old_doc) (flatten_sections new_doc)))).map
        (fun c => typeRank c.change_type), x = 2 := by
      intro x hx
      rcases List.mem_map.mp hx with ⟨c, hc, hx⟩
      rw [← hx, mem_modifiedOf hc]
      rfl
    refine ⟨⟨pairwise_le_of_const hA, pairwise_le_of_const hR, ?_⟩,
            pairwise_le_of_const hM, ?_⟩
    · intro a ha b hb
      rw [hA a ha, hR b hb]
      omega
    · intro a ha b hb
      rcases List.mem_append.mp ha with ha | ha
      · rw [hA a ha, hM b hb]
        omega
      · rw [hR a ha, hM b hb]
        omega
  · rw [detect_changes_filter_added, addedOf_map_section_id]
  · rw [detect_changes_filter_removed, removedOf_map_section_id]

/-- Python string comparison `a <= b`: lexicographic on code points. -/
def pyLe : PyStr → PyStr → Bool
  | [], _ => true
  | _ :: _, [] => false
  | a :: as, b :: bs =>
    if a < b then true
    else if b < a then false
    else pyLe as bs

/-- Old tree for the ordering counterexample: a bare root. -/
def c4old : DocumentSection := .mk (pstr "r") (pstr "R") (pstr "root") []

/-- New tree for the ordering counterexample: the same root with two new
subsections in document order "3" then "1". -/
def c4new : DocumentSection :=
  .mk (pstr "r") (pstr "R") (pstr "root")
    [.mk (pstr "3") (pstr "T3") (pstr "x") [],
     .mk (pstr "1") (pstr "T1") (pstr "y") []]

/-- C4 counterexample: on a new tree whose subsections appear in document
order "3", "1", the ADDED changes come out in that traversal order, which
is not ascending section_id — refuting the within-type ascending-order
part of the claim at a concrete input. -/
theorem detect_changes_not_ascending_counterexample :
    ((detect_changes id (mkRat 17 20) c4old c4new).filter
        (fun c => c.change_type = ChangeType.ADDED)).map Change.section_id =
      [pstr "3", pstr "1"] ∧
    ¬ (((detect_changes id (mkRat 17 20) c4old c4new).filter
        (fun c => c.change_type = ChangeType.ADDED)).map Change.section_id).Sorted
        (fun a b => pyLe a b = true) := by
  constructor
  · decide
  · rw [List.Sorted]
    decide

/-- Old tree for the determinism counterexample: root with subsections
"a" and "b". -/
def c3old : DocumentSection :=
  .mk (pstr "r") (pstr "R") (pstr "root")
    [.mk (pstr "a") (pstr "A") (pstr "aaaa") [],
     .mk (pstr "b") (pstr "B") (pstr "bbbb") []]

/-- New tree for the determinism counterexample: both subsection contents
replaced by dissimilar text. -/
def c3new : DocumentSection :=
  .mk (pstr "r") (pstr "R") (pstr "root")
    [.mk (pstr "a") (pstr "A") (pstr "cccc") [],
     .mk (pstr "b") (pstr "B") (pstr "dddd") []]

/-- C3 counterexample: two legitimate enumerations of the shared-id set
(both permutations of it, as CPython set iteration is under two different
hash seeds) yield different ordered outputs on the same trees and
threshold, so runs in different interpreter processes need not agree. -/
theorem detect_changes_cross_process_counterexample :
    (id (sharedKeys (flatten_sections c3old) (flatten_sections c3new))).Perm
      (sharedKeys (flatten_sections c3old) (flatten_sections c3new)) ∧
    (List.reverse (sharedKeys (flatten_sections c3old) (flatten_sections c3new))).Perm
      (sharedKeys (flatten_sections c3old) (flatten_sections c3new)) ∧
    detect_changes id (mkRat 17 20) c3old c3new ≠
      detect_changes List.reverse (mkRat 17 20) c3old c3new := by
  refine ⟨by decide, by decide, by decide⟩

/-- C3 (amended): for fixed trees and threshold, any two runs (any two
set enumerations that are permutations of the shared-id set) produce
outputs that are permutations of each other and agree exactly on the
ADDED and REMOVED segments; only the relative order of the MODIFIED
entries depends on the process hash seed. -/
theorem detect_changes_output_perm (σ₁ σ₂ : List PyStr → List PyStr) (θ : ℚ)
    (old_doc new_doc : DocumentSection)
    (h₁ : (σ₁ (sharedKeys (flatten_sections old_doc) (flatten_sections new_doc))).Perm
        (sharedKeys (flatten_sections old_doc) (flatten_sections new_doc)))
    (h₂ : (σ₂ (sharedKeys (flatten_sections old_doc) (flatten_sections new_doc))).Perm
        (sharedKeys (flatten_sections old_doc) (flatten_sections new_doc))) :
    (detect_changes σ₁ θ old_doc new_doc).Perm (detect_changes σ₂ θ old_doc new_doc) ∧
    (detect_changes σ₁ θ old_doc new_doc).filter
        (fun c => c.change_type = ChangeType.ADDED) =
      (detect_changes σ₂ θ old_doc new_doc).filter
        (fun c => c.change_type = ChangeType.ADDED) ∧
    (detect_changes σ₁ θ old_doc new_doc).filter
        (fun c => c.change_type = ChangeType.REMOVED) =
      (detect_changes σ₂ θ old_doc new_doc).filter
        (fun c => c.change_type = ChangeType.REMOVED) := by
  refine ⟨?_, ?_, ?_⟩
  · rw [detect_changes_split, detect_changes_split]
    exact List.Perm.append_left _ ((h₁.trans h₂.symm).filterMap _)
  · rw [detect_changes_filter_added, detect_changes_filter_added]
  · rw [detect_changes_filter_removed, detect_changes_filter_removed]

/-- Witness for the amended C3 theorem at a concrete input: the identity
and reversal enumerations of the shared-id set of the counterexample
trees. -/
theorem detect_changes_output_perm_witness :
    (detect_changes id (mkRat 17 20) c3old c3new).Perm
        (detect_changes List.reverse (mkRat 17 20) c3old c3new) ∧
    (detect_changes id (mkRat 17 20) c3old c3new).filter
        (fun c => c.change_type = ChangeType.ADDED) =
      (detect_changes List.reverse (mkRat 17 20) c3old c3new).filter
        (fun c => c.change_type = ChangeType.ADDED) ∧
    (detect_changes id (mkRat 17 20) c3old c3new).filter
        (fun c => c.change_type = ChangeType.REMOVED) =
      (detect_changes List.reverse (mkRat 17 20) c3old c3new).filter
        (fun c => c.change_type = ChangeType.REMOVED) :=
  detect_changes_output_perm id List.reverse (mkRat 17 20) c3old c3new
    (by decide) (by decide)

theorem dictLookup_some_mem_keys {m : List (PyStr × DocumentSection)} {k : PyStr}
    {v : DocumentSection} (h : dictLookup m k = some v) : k ∈ m.map Prod.fst := by
  unfold dictLookup at h
  rcases hf : m.find? (fun p => p.1 = k) with _ | p <;> rw [hf] at h
  · simp at h
  · have hp := List.mem_of_find?_eq_some hf
    have hpk := List.find?_some hf
    simp only [decide_eq_true_eq] at hpk
    exact hpk ▸ List.mem_map.mpr ⟨p, hp, rfl⟩

theorem mem_keys_dictLookup_some {m : List (PyStr × DocumentSection)} {k : PyStr}
    (h : k ∈ m.map Prod.fst) : ∃ v, dictLookup m k = some v := by
  rcases List.mem_map.mp h with ⟨p, hp, hk⟩
  unfold dictLookup
  rcases hf : m.find? (fun q => q.1 = k) with _ | q
  · exfalso
    have := List.find?_eq_none.mp hf p hp
    simp [hk] at this
  · exact ⟨q.2, by rw [hf]; rfl⟩

theorem mem_sharedKeys_iff {o n : List (PyStr × DocumentSection)} {k : PyStr} :
    k ∈ sharedKeys o n ↔ k ∈ o.map Prod.fst ∧ k ∈ n.map Prod.fst := by
  unfold sharedKeys
  rw [List.mem_filter]
  simp

theorem mem_modifiedOf_elim {θ : ℚ} {o n : List (PyStr × DocumentSection)}
    {iter : List PyStr} {c : Change} (h : c ∈ modifiedOf θ o n iter) :
    ∃ os ns, dictLookup o c.section_id = some os ∧
      dictLookup n c.section_id = some ns ∧ os.content ≠ ns.content ∧
      compute_similarity os.content ns.content < θ := by
  rcases List.mem_filterMap.mp h with ⟨sid, hs, hf⟩
  rcases h1 : dictLookup o sid with _ | os <;> rw [h1] at hf
  · simp [modifiedOf] at hf
  rcases h2 : dictLookup n sid with _ | ns <;> rw [h2] at hf
  · simp at hf
  simp only at hf
  by_cases hne : os.content = ns.content
  · simp [hne] at hf
  · by_cases hlt : compute_similarity os.content ns.content < θ
    · rw [if_pos hne, if_pos hlt, Option.some_inj] at hf
      subst hf
      exact ⟨os, ns, h1, h2, hne, hlt⟩
    · rw [if_pos hne, if_neg hlt] at hf
      cases hf

theorem mem_modifiedOf_intro {θ : ℚ} {o n : List (PyStr × DocumentSection)}
    {iter : List PyStr} {sid : PyStr} {os ns : DocumentSection}
    (hs : sid ∈ iter) (h1 : dictLookup o sid = some os)
    (h2 : dictLookup n sid = some ns) (hne : os.content ≠ ns.content)
    (hlt : compute_similarity os.content ns.content < θ) :
    ∃ c ∈ modifiedOf θ o n iter,
      c.change_type = ChangeType.MODIFIED ∧ c.section_id = sid := by
  refine ⟨{ change_type := .MODIFIED, section_id := sid, old_content := os.content,
            new_content := ns.content,
            similarity_score := compute_similarity os.content ns.content,
            context_title := ns.title }, ?_, rfl, rfl⟩
  apply List.mem_filterMap.mpr
  refine ⟨sid, hs, ?_⟩
  rw [h1, h2]
  simp [hne, hlt]

theorem seqRatio_nonneg (a b : PyStr) : 0 ≤ seqRatio a b := by
  rw [seqRatio_eq]
  split
  · norm_num
  · positivity

theorem seqRatio_le_one (a b : PyStr) : seqRatio a b ≤ 1 := by
  rw [seqRatio_eq]
  split
  · norm_num
  · rename_i h
    have hlb : lcsLen a b ≤ a.length := lcsAux_le_left _ a b
    have hrb : lcsLen a b ≤ b.length := lcsAux_le_right _ a b
    have hpos : 0 < a.length + b.length := Nat.pos_of_ne_zero h
    rw [div_le_one (by exact_mod_cast hpos)]
    exact_mod_cast (by omega : 2 * lcsLen a b ≤ a.length + b.length)

theorem foldr_max_nonneg (l : List ℚ) : 0 ≤ l.foldr max 0 := by
  induction l with
  | nil => exact le_refl 0
  | cons x l ih => exact le_trans ih (le_max_right x _)

theorem foldr_max_le (l : List ℚ) (h : ∀ x ∈ l, x ≤ 1) : l.foldr max 0 ≤ 1 := by
  induction l with
  | nil => norm_num
  | cons x l ih =>
    simp only [List.foldr_cons]
    exact max_le (h x (List.mem_cons_self x l))
      (ih fun y hy => h y (List.mem_cons_of_mem x hy))

theorem partialRatio_nonneg (a b : PyStr) : 0 ≤ partialRatio a b := by
  unfold partialRatio
  exact foldr_max_nonneg _

theorem partialRatio_le_one (a b : PyStr) : partialRatio a b ≤ 1 := by
  unfold partialRatio
  apply foldr_max_le
  intro x hx
  rcases List.mem_map.mp hx with ⟨i, hi, hx⟩
  rw [← hx]
  exact seqRatio_le_one _ _

/-- C2: for a section id present in both flattened trees, detect_changes
emits a MODIFIED Change exactly when the two contents differ and the
hybrid similarity (the average of the character-level sequence-ratio
score and the token-level partial-overlap score, each lying in [0, 1]) is
strictly below the threshold; equal contents or a score at or above the
threshold produce no Change. -/
theorem detect_changes_modified_iff (enumSet : List PyStr → List PyStr) (θ : ℚ)
    (old_doc new_doc : DocumentSection) (sid : PyStr)
    (hperm : (enumSet (sharedKeys (flatten_sections old_doc)
        (flatten_sections new_doc))).Perm
      (sharedKeys (flatten_sections old_doc) (flatten_sections new_doc))) :
    ((∃ c ∈ detect_changes enumSet θ old_doc new_doc,
        c.change_type = ChangeType.MODIFIED ∧ c.section_id = sid) ↔
      ∃ os ns, dictLookup (flatten_sections old_doc) sid = some os ∧
        dictLookup (flatten_sections new_doc) sid = some ns ∧
        os.content ≠ ns.content ∧
        compute_similarity os.content ns.content < θ) ∧
    (∀ a b : PyStr, 0 ≤ seqRatio a b ∧ seqRatio a b ≤ 1 ∧
      0 ≤ partialRatio a b ∧ partialRatio a b ≤ 1) := by
  constructor
  · constructor
    · rintro ⟨c, hc, hty, rfl⟩
      rw [detect_changes_split] at hc
      rcases List.mem_append.mp hc with hc | hc
      rcases List.mem_append.mp hc with hc | hc
      · rw [(mem_addedOf hc).1] at hty
        cases hty
      · rw [(mem_removedOf hc).1] at hty
        cases hty
      · exact mem_modifiedOf_elim hc
    · rintro ⟨os, ns, h1, h2, hne, hlt⟩
      have hsk : sid ∈ sharedKeys (flatten_sections old_doc) (flatten_sections new_doc) :=
        mem_sharedKeys_iff.mpr ⟨dictLookup_some_mem_keys h1, dictLookup_some_mem_keys h2⟩
      have hit : sid ∈ enumSet (sharedKeys (flatten_sections old_doc)
          (flatten_sections new_doc)) := hperm.mem_iff.mpr hsk
      rcases mem_modifiedOf_intro hit h1 h2 hne hlt with ⟨c, hc, hm, hsid⟩
      refine ⟨c, ?_, hm, hsid⟩
      rw [detect_changes_split]
      exact List.mem_append_right _ hc
  · intro a b
    exact ⟨seqRatio_nonneg a b, seqRatio_le_one a b,
      partialRatio_nonneg a b, partialRatio_le_one a b⟩

/-- Witness for C2 at a concrete input: the counterexample trees with the
identity enumeration and threshold 17/20, at section id "a". -/
theorem detect_changes_modified_iff_witness :
    (id (sharedKeys (flatten_sections c3old) (flatten_sections c3new))).Perm
      (sharedKeys (flatten_sections c3old) (flatten_sections c3new)) ∧
    (((∃ c ∈ detect_changes id (mkRat 17 20) c3old c3new,
        c.change_type = ChangeType.MODIFIED ∧ c.section_id = pstr "a") ↔
      ∃ os ns, dictLookup (flatten_sections c3old) (pstr "a") = some os ∧
        dictLookup (flatten_sections c3new) (pstr "a") = some ns ∧
        os.content ≠ ns.content ∧
        compute_similarity os.content ns.content < mkRat 17 20) ∧
    (∀ a b : PyStr, 0 ≤ seqRatio a b ∧ seqRatio a b ≤ 1 ∧
      0 ≤ partialRatio a b ∧ partialRatio a b ≤ 1)) :=
  ⟨by decide,
   detect_changes_modified_iff id (mkRat 17 20) c3old c3new (pstr "a") (by decide)⟩

theorem mergeAbsorb_fst_tokens_le {minT maxT : Nat} {c : Chunk} {l : List Chunk}
    (h : c.tokens ≤ maxT) : (mergeAbsorb minT maxT c l).1.tokens ≤ maxT := by
  induction l generalizing c with
  | nil => simpa [mergeAbsorb] using h
  | cons n rest ih =>
    simp only [mergeAbsorb]
    split
    · split
      · rename_i hcount
        exact ih (by simpa using hcount)
      · simpa using h
    · simpa using h

theorem mergeAbsorb_snd_subset {minT maxT : Nat} {c : Chunk} {l : List Chunk} :
    ∀ d ∈ (mergeAbsorb minT maxT c l).2, d ∈ l := by
  induction l generalizing c with
  | nil => simp [mergeAbsorb]
  | cons n rest ih =>
    simp only [mergeAbsorb]
    split
    · split
      · intro d hd
        exact List.mem_cons_of_mem n (ih d hd)
      · intro d hd
        exact hd
    · intro d hd
      exact hd

/-- C5 (amended): the merge pass preserves the upper token bound — if
every chunk entering `merge_small_chunks` has tokens within max_tokens
(as the splitter guarantees whenever each individual sentence fits),
every chunk after merging does too.  The lower bound of the original
claim does not hold: a paragraph chunk below min_tokens may survive even
when it is not its section's sole paragraph chunk, whenever merging with
its successor would exceed max_tokens or the successor is a heading or
belongs to another section (see the counterexample). -/
theorem merge_preserves_upper_bound (minT maxT : Nat) (n : Nat) :
    ∀ (l : List Chunk), l.length = n →
      (∀ c ∈ l, c.tokens ≤ maxT) →
      ∀ c ∈ merge_small_chunks minT maxT l, c.tokens ≤ maxT := by
  induction n using Nat.strong_induction_on with
  | _ n ih =>
    intro l hlen h c hc
    cases l with
    | nil =>
      rw [merge_small_chunks_nil] at hc
      cases hc
    | cons a rest =>
      by_cases hh : a.chunk_type = pstr "heading"
      · rw [merge_small_chunks_heading _ _ _ _ hh] at hc
        rcases List.mem_cons.mp hc with hca | hc
        · rw [hca]
          exact h a (List.mem_cons_self a rest)
        · exact ih rest.length (by simp at hlen; omega) rest rfl
            (fun d hd => h d (List.mem_cons_of_mem a hd)) c hc
      · rw [merge_small_chunks_absorb _ _ _ _ hh] at hc
        rcases List.mem_cons.mp hc with hca | hc
        · rw [hca]
          exact mergeAbsorb_fst_tokens_le (h a (List.mem_cons_self a rest))
        · have hsub := mergeAbsorb_snd_length minT maxT a rest
          exact ih (mergeAbsorb minT maxT a rest).2.length
            (by simp at hlen; omega) (mergeAbsorb minT maxT a rest).2 rfl
            (fun d hd => h d (List.mem_cons_of_mem a (mergeAbsorb_snd_subset d hd))) c hc

/-- A one-chunk list within the bounds, for the upper-bound witness. -/
def boundedChunkList : List Chunk :=
  [{ section_id := pstr "1", parent_section := none, title := none,
     chunk_id := pstr "1_1", content := pstr "abcd",
     chunk_type := pstr "paragraph", position := 1, tokens := 1 }]

/-- Witness for the amended C5 theorem at a concrete input. -/
theorem merge_preserves_upper_bound_witness :
    boundedChunkList.length = 1 ∧
    (∀ c ∈ boundedChunkList, c.tokens ≤ 5) ∧
    ∀ c ∈ merge_small_chunks 3 5 boundedChunkList, c.tokens ≤ 5 :=
  ⟨rfl, by decide, merge_preserves_upper_bound 3 5 1 boundedChunkList rfl (by decide)⟩

/-- Modelled from the spec: a sentence segmentation (spec section 4.2) for
the token-bound counterexample — the body paragraph splits into its two
sentences; any other text is one sentence. -/
def c5seg : PyStr → List PyStr := fun t =>
  if t = pstr "Hi. Bbbbbbbb bbbbbbbbbbb." then
    [pstr "Hi.", pstr "Bbbbbbbb bbbbbbbbbbb."]
  else if pstrip t = [] then [] else [pstrip t]

/-- Document for the token-bound counterexample: a Contents marker, one
heading, and one body paragraph of two sentences. -/
def c5doc : PyDoc :=
  { paragraphs := [pstr "Contents", pstr "1 T", pstr "Hi. Bbbbbbbb bbbbbbbbbbb."],
    headerParagraphs := [], headerTableCells := [], tableCells := [] }

/-- C5 counterexample: with max_tokens 5 and min_chunk_tokens 3, section 1
ends up with two paragraph chunks, one of 1 token (below the minimum,
because merging with its 5-token successor would exceed the maximum), so
the claimed lower bound fails for a chunk that is not its section's sole
paragraph chunk. -/
theorem chunk_token_bounds_counterexample :
    ¬ (∀ c ∈ parse_docx c5seg c5doc 5 3, c.chunk_type = pstr "paragraph" →
        c.tokens ≤ 5 ∧ (3 ≤ c.tokens ∨
          ((parse_docx c5seg c5doc 5 3).filter (fun d =>
            d.chunk_type = pstr "paragraph" ∧
              d.section_id = c.section_id)).length = 1)) := by
  decide

theorem foldl_chunks_ext {α : Type} (g : ParseSt → α → ParseSt)
    (hg : ∀ s a, ∃ r, (g s a).chunks = s.chunks ++ r) :
    ∀ (xs : List α) (st : ParseSt), ∃ r, (xs.foldl g st).chunks = st.chunks ++ r := by
  intro xs
  induction xs with
  | nil =>
    intro st
    exact ⟨[], by simp⟩
  | cons x xs ih =>
    intro st
    rcases hg st x with ⟨r1, h1⟩
    rcases ih (g st x) with ⟨r2, h2⟩
    refine ⟨r1 ++ r2, ?_⟩
    rw [List.foldl_cons, h2, h1, List.append_assoc]

theorem addText_chunks (sents : PyStr → List PyStr) (maxT : Nat) (st : ParseSt)
    (t : PyStr) : ∃ r, (addText sents maxT st t).chunks = st.chunks ++ r := by
  unfold addText
  exact foldl_chunks_ext _ (fun s a => ⟨_, rfl⟩) _ st

theorem textStep_chunks (sents : PyStr → List PyStr) (maxT : Nat) (s : ParseSt)
    (p : PyStr) : ∃ r, (textStep sents maxT s p).chunks = s.chunks ++ r := by
  unfold textStep
  split
  · exact ⟨[], by simp⟩
  · exact addText_chunks sents maxT s (pstrip p)

theorem loop1_chunks (sents : PyStr → List PyStr) (maxT : Nat) :
    ∀ (ps : List PyStr) (st : ParseSt) (idx : Nat),
      ∃ r, (loop1 sents maxT st idx ps).1.chunks = st.chunks ++ r := by
  intro ps
  induction ps with
  | nil =>
    intro st idx
    exact ⟨[], by simp [loop1]⟩
  | cons p ps ih =>
    intro st idx
    by_cases h0 : pstrip p = []
    · simpa [loop1, h0] using ih st (idx + 1)
    · by_cases h1 : startsContents (pstrip p) = true
      · exact ⟨[], by simp [loop1, h0, h1]⟩
      · rcases addText_chunks sents maxT st (pstrip p) with ⟨r1, hr1⟩
        rcases ih (addText sents maxT st (pstrip p)) (idx + 1) with ⟨r2, hr2⟩
        refine ⟨r1 ++ r2, ?_⟩
        simp only [loop1, h0, h1, if_false, Bool.false_eq_true]
        rw [hr2, hr1, List.append_assoc]

theorem procBody_chunks (sents : PyStr → List PyStr) (maxT : Nat) :
    ∀ (s : ParseSt) (p : PyStr), ∃ r, (procBody sents maxT s p).chunks = s.chunks ++ r := by
  intro s p
  by_cases h0 : pstrip p = []
  · exact ⟨[], by simp [procBody, h0]⟩
  · by_cases h1 : is_heading (pstrip p) = true
    · rcases hsec : extract_section_number (pstrip p) with _ | sec
      · exact ⟨[], by simp [procBody, h0, h1, hsec]⟩
      · have hrec : (procBody sents maxT s p).chunks = s.chunks ++
            [{ section_id := sec,
               parent_section := if '.' ∈ sec then some (dotParent sec) else none,
               title := some (extract_title (pstrip p)),
               chunk_id := sec ++ '_' :: natRepr 0,
               content := extract_title (pstrip p),
               chunk_type := pstr "heading",
               position := 0,
               tokens := count_tokens (extract_title (pstrip p)) }] := by
          simp [procBody, h0, h1, hsec]
        exact ⟨_, hrec⟩
    · simpa [procBody, h0, h1] using addText_chunks sents maxT s (pstrip p)

theorem collectChunks_shape (sents : PyStr → List PyStr) (maxT : Nat) (doc : PyDoc) :
    ∃ r, (collectChunks sents maxT doc).chunks = preambleChunk :: r := by
  rcases loop1_chunks sents maxT doc.paragraphs parseInit 0 with ⟨r1, h1⟩
  rcases foldl_chunks_ext (textStep sents maxT) (textStep_chunks sents maxT)
      doc.headerParagraphs (loop1 sents maxT parseInit 0 doc.paragraphs).1 with ⟨r2, h2⟩
  rcases foldl_chunks_ext (textStep sents maxT) (textStep_chunks sents maxT)
      doc.headerTableCells
      (doc.headerParagraphs.foldl (textStep sents maxT)
        (loop1 sents maxT parseInit 0 doc.paragraphs).1) with ⟨r3, h3⟩
  rcases foldl_chunks_ext (textStep sents maxT) (textStep_chunks sents maxT)
      doc.tableCells
      (doc.headerTableCells.foldl (textStep sents maxT)
        (doc.headerParagraphs.foldl (textStep sents maxT)
          (loop1 sents maxT parseInit 0 doc.paragraphs).1)) with ⟨r4, h4⟩
  rcases foldl_chunks_ext (procBody sents maxT) (procBody_chunks sents maxT)
      (doc.paragraphs.drop ((loop1 sents maxT parseInit 0 doc.paragraphs).2.getD 0))
      (doc.tableCells.foldl (textStep sents maxT)
        (doc.headerTableCells.foldl (textStep sents maxT)
          (doc.headerParagraphs.foldl (textStep sents maxT)
            (loop1 sents maxT parseInit 0 doc.paragraphs).1))) with ⟨r5, h5⟩
  refine ⟨r1 ++ r2 ++ r3 ++ r4 ++ r5, ?_⟩
  unfold collectChunks
  rw [h5, h4, h3, h2, h1]
  simp [parseInit]

/-- C10: for every document the parser accepts (not only empty ones), the
first chunk of the returned list is the synthetic preamble heading chunk:
section_id "0_preamble", chunk_id "0_preamble_0", chunk_type "heading",
position 0, no parent section and 0 tokens. -/
theorem parse_docx_preamble_first (sents : PyStr → List PyStr) (doc : PyDoc)
    (maxT minT : Nat) :
    (parse_docx sents doc maxT minT).head? = some preambleChunk := by
  rcases collectChunks_shape sents maxT doc with ⟨r, hr⟩
  unfold parse_docx
  rw [hr, merge_small_chunks_heading _ _ _ _ rfl]
  unfold renumber
  have hpre : ({ preambleChunk with
      chunk_id := preambleChunk.section_id ++ '_' :: natRepr ((fun _ => (0 : Nat)) preambleChunk.section_id),
      position := (fun _ => (0 : Nat)) preambleChunk.section_id } : Chunk) = preambleChunk := by
    decide
  rw [List.head?]
  rw [hpre]

theorem renumber_mem : ∀ (l : List Chunk) (cnt : PyStr → Nat) (c : Chunk),
    c ∈ renumber cnt l →
      c.chunk_id = c.section_id ++ '_' :: natRepr c.position ∧
      cnt c.section_id ≤ c.position := by
  intro l
  induction l with
  | nil =>
    intro cnt c hc
    cases hc
  | cons a rest ih =>
    intro cnt c hc
    simp only [renumber] at hc
    rcases List.mem_cons.mp hc with hca | hc
    · rw [hca]
      exact ⟨rfl, le_refl _⟩
    · have hrec := ih (fun s => if s = a.section_id then cnt a.section_id + 1 else cnt s) c hc
      refine ⟨hrec.1, ?_⟩
      have h2 : (if c.section_id = a.section_id then cnt a.section_id + 1
          else cnt c.section_id) ≤ c.position := hrec.2
      by_cases hs : c.section_id = a.section_id
      · rw [if_pos hs] at h2
        rw [hs]
        omega
      · rwa [if_neg hs] at h2

theorem renumber_ids_nodup : ∀ (l : List Chunk) (cnt : PyStr → Nat),
    ((renumber cnt l).map Chunk.chunk_id).Nodup := by
  intro l
  induction l with
  | nil =>
    intro cnt
    simp [renumber]
  | cons a rest ih =>
    intro cnt
    simp only [renumber, List.map_cons, List.nodup_cons]
    refine ⟨?_, ih _⟩
    intro hmem
    rcases List.mem_map.mp hmem with ⟨d, hd, hid⟩
    have hrec := renumber_mem rest _ d hd
    rw [hrec.1] at hid
    rcases id_encode_inj hid with ⟨hsec, hpos⟩
    have h2 : (if d.section_id = a.section_id then cnt a.section_id + 1
        else cnt d.section_id) ≤ d.position := hrec.2
    rw [if_pos hsec] at h2
    omega

theorem renumber_filter_positions : ∀ (l : List Chunk) (cnt : PyStr → Nat) (sec : PyStr),
    ((renumber cnt l).filter (fun c => c.section_id = sec)).map Chunk.position =
      List.range' (cnt sec) ((l.filter (fun c => c.section_id = sec)).length) := by
  intro l
  induction l with
  | nil =>
    intro cnt sec
    simp [renumber]
  | cons a rest ih =>
    intro cnt sec
    simp only [renumber, List.filter_cons]
    by_cases hs : a.section_id = sec
    · subst hs
      have hih := ih (fun s => if s = a.section_id then cnt a.section_id + 1 else cnt s)
        a.section_id
      have hih2 : ((renumber (fun s => if s = a.section_id then cnt a.section_id + 1
            else cnt s) rest).filter (fun c => c.section_id = a.section_id)).map
          Chunk.position =
          List.range' (cnt a.section_id + 1)
            ((rest.filter (fun c => c.section_id = a.section_id)).length) := by
        rw [hih, if_pos rfl]
      simp [hih2, List.range'_succ]
    · have hih := ih (fun s => if s = a.section_id then cnt a.section_id + 1 else cnt s) sec
      have hih2 : ((renumber (fun s => if s = a.section_id then cnt a.section_id + 1
            else cnt s) rest).filter (fun c => c.section_id = sec)).map Chunk.position =
          List.range' (cnt sec) ((rest.filter (fun c => c.section_id = sec)).length) := by
        rw [hih, if_neg (fun h => hs h.symm)]
      simp [hih2, hs]

/-- C6: in any chunk list returned by parse_docx, the chunk_id values are
pairwise distinct, each chunk_id is its section_id followed by an
underscore and the decimal position, and within each section the
positions after merging are dense: 0, 1, 2, ... in list order. -/
theorem parse_docx_chunk_ids (sents : PyStr → List PyStr) (doc : PyDoc)
    (maxT minT : Nat) :
    ((parse_docx sents doc maxT minT).map Chunk.chunk_id).Nodup ∧
    (∀ c ∈ parse_docx sents doc maxT minT,
        c.chunk_id = c.section_id ++ '_' :: natRepr c.position) ∧
    ∀ sec : PyStr,
      ((parse_docx sents doc maxT minT).filter
          (fun c => c.section_id = sec)).map Chunk.position =
        List.range (((parse_docx sents doc maxT minT).filter
          (fun c => c.section_id = sec)).length) := by
  unfold parse_docx
  refine ⟨renumber_ids_nodup _ _, fun c hc => (renumber_mem _ _ c hc).1, fun sec => ?_⟩
  have hmap := renumber_filter_positions
    (merge_small_chunks minT maxT (collectChunks sents maxT doc).chunks)
    (fun _ => 0) sec
  rw [hmap, List.range_eq_range']
  congr 1
  have hlen := congrArg List.length hmap
  simp only [List.length_map, List.length_range'] at hlen
  exact hlen.symm

theorem dropWhile_append_length_le {α : Type} (p : α → Bool) (x v : List α) :
    (v.dropWhile p).length ≤ ((x ++ v).dropWhile p).length := by
  rw [List.dropWhile_append]
  split
  · exact le_refl _
  · rw [List.length_append]
    have h1 := dropWhile_length_le p v
    omega

theorem pstrip_length_append (u e : PyStr) :
    (pstrip u).length ≤ (pstrip (u ++ e)).length := by
  by_cases h : u.dropWhile isWSc = []
  · have hu : pstrip u = [] := by
      unfold pstrip
      rw [h]
      simp
    rw [hu]
    exact Nat.zero_le _
  · unfold pstrip
    rw [List.dropWhile_append]
    rw [if_neg (by simpa using h)]
    rw [List.reverse_append]
    simp only [List.length_reverse]
    exact dropWhile_append_length_le isWSc e.reverse (u.dropWhile isWSc).reverse

theorem count_tokens_append_mono (u e : PyStr) :
    count_tokens u ≤ count_tokens (u ++ e) := by
  unfold count_tokens
  have hlen := pstrip_length_append u e
  by_cases h : pstrip u = []
  · rw [if_pos h]
    exact Nat.zero_le _
  · rw [if_neg h]
    have h1 : 0 < (pstrip u).length := List.length_pos.mpr h
    have h2 : ¬ pstrip (u ++ e) = [] := by
      intro hc
      rw [hc] at hlen
      simp at hlen
      exact h hlen
    rw [if_neg h2]
    have : (pstrip u).length / 4 ≤ (pstrip (u ++ e)).length / 4 :=
      Nat.div_le_div_right hlen
    omega

theorem mergeAbsorb_fst_type_sec (minT maxT : Nat) (c : Chunk) (l : List Chunk) :
    (mergeAbsorb minT maxT c l).1.chunk_type = c.chunk_type ∧
    (mergeAbsorb minT maxT c l).1.section_id = c.section_id := by
  induction l generalizing c with
  | nil => exact ⟨rfl, rfl⟩
  | cons n rest ih =>
    simp only [mergeAbsorb]
    split
    · split
      · exact ih _
      · exact ⟨rfl, rfl⟩
    · exact ⟨rfl, rfl⟩

theorem mergeAbsorb_fst_content (minT maxT : Nat) (c : Chunk) (l : List Chunk) :
    ∃ e, (mergeAbsorb minT maxT c l).1.content = c.content ++ e := by
  induction l generalizing c with
  | nil => exact ⟨[], by simp [mergeAbsorb]⟩
  | cons n rest ih =>
    simp only [mergeAbsorb]
    split
    · split
      · obtain ⟨e, he⟩ := ih
          { c with
            content := c.content ++ pstr " " ++ n.content,
            tokens := count_tokens (c.content ++ pstr " " ++ n.content) }
        refine ⟨pstr " " ++ n.content ++ e, ?_⟩
        rw [he]
        simp [List.append_assoc]
      · exact ⟨[], by simp⟩
    · exact ⟨[], by simp⟩

theorem mergeAbsorb_exit (minT maxT : Nat) (c : Chunk) (l : List Chunk) :
    (mergeAbsorb minT maxT c l).2 = [] ∨
    ∃ n rs, (mergeAbsorb minT maxT c l).2 = n :: rs ∧
      (¬ ((mergeAbsorb minT maxT c l).1.tokens < minT ∧
          n.chunk_type ≠ pstr "heading" ∧
          (mergeAbsorb minT maxT c l).1.section_id = n.section_id) ∨
       count_tokens ((mergeAbsorb minT maxT c l).1.content ++ pstr " " ++ n.content)
         > maxT) := by
  induction l generalizing c with
  | nil => exact Or.inl rfl
  | cons n rest ih =>
    simp only [mergeAbsorb]
    split
    · split
      · exact ih _
      · rename_i hcond hcount
        right
        refine ⟨n, rest, rfl, Or.inr ?_⟩
        show count_tokens (c.content ++ pstr " " ++ n.content) > maxT
        omega
    · rename_i hcond
      right
      refine ⟨n, rest, rfl, Or.inl ?_⟩
      show ¬ (c.tokens < minT ∧ n.chunk_type ≠ pstr "heading" ∧
        c.section_id = n.section_id)
      exact hcond

theorem merge_head (minT maxT : Nat) (x : Chunk) (xs : List Chunk) :
    ∃ y ys, merge_small_chunks minT maxT (x :: xs) = y :: ys ∧
      y.chunk_type = x.chunk_type ∧ y.section_id = x.section_id ∧
      ∃ e, y.content = x.content ++ e := by
  by_cases hh : x.chunk_type = pstr "heading"
  · rw [merge_small_chunks_heading _ _ _ _ hh]
    exact ⟨x, _, rfl, rfl, rfl, [], by simp⟩
  · rw [merge_small_chunks_absorb _ _ _ _ hh]
    exact ⟨_, _, rfl, (mergeAbsorb_fst_type_sec minT maxT x xs).1,
      (mergeAbsorb_fst_type_sec minT maxT x xs).2,
      mergeAbsorb_fst_content minT maxT x xs⟩

theorem mergeAbsorb_merge_stable (minT maxT : Nat) (c : Chunk) (l : List Chunk) :
    mergeAbsorb minT maxT (mergeAbsorb minT maxT c l).1
        (merge_small_chunks minT maxT (mergeAbsorb minT maxT c l).2) =
      ((mergeAbsorb minT maxT c l).1,
       merge_small_chunks minT maxT (mergeAbsorb minT maxT c l).2) := by
  rcases mergeAbsorb_exit minT maxT c l with hr | ⟨n, rs, hr, hcond⟩
  · rw [hr, merge_small_chunks_nil]
    rfl
  · rw [hr]
    obtain ⟨y, ys, hm, hyt, hys, e, hyc⟩ := merge_head minT maxT n rs
    rw [hm]
    simp only [mergeAbsorb]
    rcases hcond with hfail | hover
    · have hnc : ¬ ((mergeAbsorb minT maxT c l).1.tokens < minT ∧
          y.chunk_type ≠ pstr "heading" ∧
          (mergeAbsorb minT maxT c l).1.section_id = y.section_id) := by
        rintro ⟨h1, h2, h3⟩
        rw [hyt] at h2
        rw [hys] at h3
        exact hfail ⟨h1, h2, h3⟩
      rw [if_neg hnc]
    · have hgt : ¬ count_tokens ((mergeAbsorb minT maxT c l).1.content ++ pstr " " ++
          y.content) ≤ maxT := by
        rw [hyc, ← List.append_assoc]
        have hmono := count_tokens_append_mono
          ((mergeAbsorb minT maxT c l).1.content ++ pstr " " ++ n.content) e
        omega
      split <;> rfl

theorem merge_idem_aux (minT maxT : Nat) :
    ∀ (n : Nat) (l : List Chunk), l.length = n →
      merge_small_chunks minT maxT (merge_small_chunks minT maxT l) =
        merge_small_chunks minT maxT l := by
  intro n
  induction n using Nat.strong_induction_on with
  | _ n ih =>
    intro l hlen
    cases l with
    | nil => rfl
    | cons a rest =>
      by_cases hh : a.chunk_type = pstr "heading"
      · rw [merge_small_chunks_heading _ _ _ _ hh,
          merge_small_chunks_heading _ _ _ _ hh,
          ih rest.length (by simp at hlen; omega) rest rfl]
      · rw [merge_small_chunks_absorb _ _ _ _ hh]
        have hp1 : ¬ (mergeAbsorb minT maxT a rest).1.chunk_type = pstr "heading" := by
          rw [(mergeAbsorb_fst_type_sec minT maxT a rest).1]
          exact hh
        rw [merge_small_chunks_absorb _ _ _ _ hp1, mergeAbsorb_merge_stable]
        have hlen2 := mergeAbsorb_snd_length minT maxT a rest
        simp only []
        rw [ih (mergeAbsorb minT maxT a rest).2.length (by simp at hlen; omega) _ rfl]

/-- C7: the merge pass is idempotent — applying merge_small_chunks to its
own output returns that output unchanged; the merged list is a fixed
point and no further merges occur. -/
theorem merge_small_chunks_idempotent (minT maxT : Nat) (l : List Chunk) :
    merge_small_chunks minT maxT (merge_small_chunks minT maxT l) =
      merge_small_chunks minT maxT l :=
  merge_idem_aux minT maxT l.length l rfl
